import Mathlib

/-!
Verification development for the static-code-analyser repository
(`src/analyser.rs`, `src/parser/ast.rs`).

The Rust scope tree (`Context` nodes linked by `Rc<RefCell<_>>` children and
`Weak` parent back-references) is embedded as a zipper: the current scope is a
plain tree (`Scope`), and the ancestors are a list of frames (innermost
first).  A frame stores the ancestor scope with the hole for the in-progress
child at the end of its `children` list; `backtrack` plugs the finished child
back in.  This is faithful because every mutation performed by the analyser
goes through the current scope or its parent chain (`Context::get_mut`), and
scopes that are neither current nor ancestors are never written again.

`HashMap<String, Def>` is embedded as an association list with insertion
order and overwrite-in-place semantics (`insertDef`); iteration order of the
Rust map is unspecified, the list fixes one deterministic order.  The `f64`
payload of `Ast::Number` is inert for the analysis and is embedded as `Int`.
The `panic!("no parent")` in `StaticAnalyser::backtrack` is embedded as the
`none` outcome of an `Option`.
-/

namespace Sca

/-- Source span, from `lexpar::lexer::Span` (fields `lo`, `hi`, `line`). -/
structure Span where
  lo : Nat
  hi : Nat
  line : Nat
deriving DecidableEq, Repr

/-- Diagnostics, from `enum Error` in `src/analyser.rs`. -/
inductive Error where
  | wrongNumberOfArguments (name : String) (span : Span)
  | usingUndefinedVariable (name : String) (span : Span)
  | callingUndefinedFunction (name : String) (span : Span)
  | unusedVariable (name : String) (span : Span)
deriving DecidableEq, Repr

/-- Definition records, from `enum Def` in `src/analyser.rs`. -/
inductive Def where
  | var (span : Span) (name : String) (defined used callable : Bool)
  | fn (span : Span) (name : String) (args : Nat)
deriving DecidableEq, Repr

/-- Binary operators, from `enum BinOp` in `src/parser/ast.rs`. -/
inductive BinOp where
  | assign
  | orElse
  | andAlso
  | eq
  | notEq
  | add
  | sub
  | mul
  | div
deriving DecidableEq, Repr

/-- AST, from `enum Ast` in `src/parser/ast.rs`.  `AstNode` (a span paired
with an expression) is embedded as `Span × Ast`; `Block` is a plain list. -/
inductive Ast where
  | string (s : String)
  | number (value : Int)
  | referenceExpr (name : String)
  | functionExpr (name : String) (params : List String) (body : List (Span × Ast))
  | functionCall (name : String) (args : List (Span × Ast))
  | variableDef (name : String) (value : Option (Span × Ast))
  | block (exprs : List (Span × Ast))
  | binOp (op : BinOp) (lhs rhs : Span × Ast)
deriving Repr

/-- The embedding of Rust `AstNode { span, expr }`. -/
abbrev AstNode := Span × Ast

/-- Lexical scope, from `struct Context` in `src/analyser.rs`.  The parent
back-reference is not stored here: ancestry lives in the analyser's frame
list (zipper representation). -/
inductive Scope where
  | mk (name : String) (children : List Scope) (defs : List (String × Def))

def Scope.name : Scope → String
  | .mk n _ _ => n

def Scope.children : Scope → List Scope
  | .mk _ c _ => c

def Scope.defs : Scope → List (String × Def)
  | .mk _ _ d => d

/-- Lookup in one scope's map (`HashMap::get_mut` hit test). -/
def lookupDef : List (String × Def) → String → Option Def
  | [], _ => none
  | (k, v) :: rest, name => if k = name then some v else lookupDef rest name

/-- Overwrite the value stored at an existing key (the write performed
through `HashMap::get_mut`); keys are unique, so only the first hit counts. -/
def setDef : List (String × Def) → String → Def → List (String × Def)
  | [], _, _ => []
  | (k, v) :: rest, name, d => if k = name then (k, d) :: rest else (k, v) :: setDef rest name d

/-- Rust `HashMap::insert`: overwrite an existing key in place, otherwise add
the binding. -/
def insertDef (defs : List (String × Def)) (name : String) (d : Def) : List (String × Def) :=
  if (lookupDef defs name).isSome then setDef defs name d else defs ++ [(name, d)]

def scopeSetDef : Scope → String → Def → Scope
  | .mk n c ds, name, d => .mk n c (setDef ds name d)

def scopeInsertDef : Scope → String → Def → Scope
  | .mk n c ds, name, d => .mk n c (insertDef ds name d)

/-- Analyser state, from `struct StaticAnalyser`.  `frames` are the ancestors
of `current`, innermost first; the Rust `context` field (the root `Rc`) is
the bottom of that chain and needs no separate field. -/
structure StaticAnalyser where
  errors : List Error
  frames : List Scope
  current : Scope

/-- Parent-chain part of `Context::get_mut`: find the nearest frame holding
`name`, apply the mutator there, leave every other frame untouched. -/
def framesGetMut {α : Type} (name : String) (f : Def → Def × α) :
    List Scope → Option (List Scope × α)
  | [] => none
  | fr :: rest =>
    match lookupDef fr.defs name with
    | some d => some (scopeSetDef fr name (f d).1 :: rest, (f d).2)
    | none =>
      match framesGetMut name f rest with
      | some (rest2, a) => some (fr :: rest2, a)
      | none => none

/-- `Context::get_mut` started at the current scope: mutate the nearest
enclosing definition of `name`, or fail if no scope in the chain binds it.
The mutator also returns a value, standing for the data the Rust closures
smuggle out through captured locals. -/
def getMut {α : Type} (name : String) (f : Def → Def × α) (cur : Scope)
    (frames : List Scope) : Option (Scope × List Scope × α) :=
  match lookupDef cur.defs name with
  | some d => some (scopeSetDef cur name (f d).1, frames, (f d).2)
  | none =>
    match framesGetMut name f frames with
    | some (frames2, a) => some (cur, frames2, a)
    | none => none

/-- Pure nearest-enclosing lookup along the parent chain (specification-side
companion of `getMut`; reads the same search order, mutates nothing). -/
def framesResolve (name : String) : List Scope → Option Def
  | [] => none
  | fr :: rest =>
    match lookupDef fr.defs name with
    | some d => some d
    | none => framesResolve name rest

def resolve (name : String) (cur : Scope) (frames : List Scope) : Option Def :=
  match lookupDef cur.defs name with
  | some d => some d
  | none => framesResolve name frames

/-- Closure of the `ReferenceExpr` arm: set `used` on a variable and report
whether the reference is undefined; the captured flag starts `true` and is
only written in the variable case. -/
def refMut : Def → Def × Bool
  | .var sp n defined _ callable => (.var sp n defined true callable, !defined)
  | .fn sp n args => (.fn sp n args, true)

/-- Closure of the `FunctionCall` arm: `some (some a)` for a function of
arity `a`, `some none` for a callable variable, `none` otherwise. -/
def callMut : Def → Def × Option (Option Nat)
  | .fn sp n args => (.fn sp n args, some (some args))
  | .var sp n defined used callable =>
      (.var sp n defined used callable, if callable then some none else none)

/-- Closure of the assignment arm: set `defined` on a variable. -/
def assignMut : Def → Def × Unit
  | .var sp n _ used callable => (.var sp n true used callable, ())
  | .fn sp n args => (.fn sp n args, ())

/-- Does a variable initializer make the variable callable
(`Ast::FunctionExpr` initializer)? -/
def isFunctionValue : Option AstNode → Bool
  | some (_, .functionExpr _ _ _) => true
  | _ => false

/-- Parameter pre-binding of a new function scope: one defined, unused,
callable variable per parameter, keyed like `HashMap::insert`. -/
def paramDefs (span : Span) (params : List String) : List (String × Def) :=
  params.foldl (fun ds p => insertDef ds p (.var span p true false true)) []

/-- `StaticAnalyser::observe` from `src/analyser.rs`. -/
def observe (span : Span) (ast : Ast) (st : StaticAnalyser) : StaticAnalyser :=
  match ast with
  | .variableDef name value =>
    let d : Def := .var span name value.isSome false (isFunctionValue value)
    { st with current := scopeInsertDef st.current name d }
  | .referenceExpr name =>
    match getMut name refMut st.current st.frames with
    | some (cur2, frames2, undefined) =>
      if undefined then
        { errors := st.errors ++ [.usingUndefinedVariable name span],
          frames := frames2, current := cur2 }
      else
        { errors := st.errors, frames := frames2, current := cur2 }
    | none => { st with errors := st.errors ++ [.usingUndefinedVariable name span] }
  | .functionExpr name params _ =>
    { errors := st.errors,
      frames := scopeInsertDef st.current name (.fn span name params.length) :: st.frames,
      current := .mk name [] (paramDefs span params) }
  | .functionCall name args =>
    match getMut name callMut st.current st.frames with
    | some (cur2, frames2, a) =>
      match a with
      | none =>
        { errors := st.errors ++ [.callingUndefinedFunction name span],
          frames := frames2, current := cur2 }
      | some none => { errors := st.errors, frames := frames2, current := cur2 }
      | some (some arity) =>
        if args.length ≠ arity then
          { errors := st.errors ++ [.wrongNumberOfArguments name span],
            frames := frames2, current := cur2 }
        else
          { errors := st.errors, frames := frames2, current := cur2 }
    | none => { st with errors := st.errors ++ [.callingUndefinedFunction name span] }
  | .binOp .assign lhs _ =>
    match lhs.2 with
    | .referenceExpr name =>
      match getMut name assignMut st.current st.frames with
      | some (cur2, frames2, _) => { errors := st.errors, frames := frames2, current := cur2 }
      | none => { st with errors := st.errors ++ [.usingUndefinedVariable name span] }
    | _ => st
  | _ => st

/-- `StaticAnalyser::backtrack`: leaving a function scope plugs the finished
child back into its parent; leaving with no parent is the fatal
`panic!("no parent")`, embedded as `none`. -/
def backtrack (fromAst : Ast) (_toAst : Ast) (st : StaticAnalyser) : Option StaticAnalyser :=
  match fromAst with
  | .functionExpr _ _ _ =>
    match st.frames with
    | [] => none
    | fr :: rest =>
      some { errors := st.errors, frames := rest,
             current := .mk fr.name (fr.children ++ [st.current]) fr.defs }
  | _ => some st

/-- Unused variables of one scope's map, in map order
(`Context::all_unused`, first loop). -/
def unusedOfDefs : List (String × Def) → List Def
  | [] => []
  | (_, d) :: rest =>
    match d with
    | .var sp n defined used callable =>
      if used then unusedOfDefs rest else .var sp n defined used callable :: unusedOfDefs rest
    | .fn _ _ _ => unusedOfDefs rest

mutual

/-- `Context::all_unused`: this scope's unused variables, then the children
depth-first in order. -/
def allUnused : Scope → List Def
  | .mk _ children defs => unusedOfDefs defs ++ allUnusedList children

def allUnusedList : List Scope → List Def
  | [] => []
  | c :: cs => allUnused c ++ allUnusedList cs

end

/-- `StaticAnalyser::done`: sweep the subtree of the current scope and append
one `UnusedVariable` per collected variable. -/
def doneStep (st : StaticAnalyser) : StaticAnalyser :=
  { st with errors := st.errors ++ (allUnused st.current).filterMap (fun d =>
      match d with
      | .var span name _ _ _ => some (.unusedVariable name span)
      | .fn _ _ _ => none) }

mutual

/-- `AstNode::internal_traverse` from `src/parser/ast.rs`: observe the node,
recurse into the children listed for its shape, and fire `backtrack` once per
child edge.  `none` propagates the fatal backtrack outcome. -/
def internalTraverse : AstNode → StaticAnalyser → Option StaticAnalyser
  | (span, expr), st =>
    let st1 := observe span expr st
    match expr with
    | .functionCall _ args => traverseList expr args st1
    | .functionExpr _ _ body => traverseList expr body st1
    | .variableDef _ value =>
      match value with
      | some v =>
        match internalTraverse v st1 with
        | some st2 => backtrack v.2 expr st2
        | none => none
      | none => some st1
    | .block exprs => traverseList expr exprs st1
    | .binOp _ lhs rhs =>
      match internalTraverse lhs st1 with
      | some st2 =>
        match backtrack lhs.2 expr st2 with
        | some st3 =>
          match internalTraverse rhs st3 with
          | some st4 => backtrack rhs.2 expr st4
          | none => none
        | none => none
      | none => none
    | _ => some st1

def traverseList (parent : Ast) : List AstNode → StaticAnalyser → Option StaticAnalyser
  | [], st => some st
  | c :: cs, st =>
    match internalTraverse c st with
    | some st2 =>
      match backtrack c.2 parent st2 with
      | some st3 => traverseList parent cs st3
      | none => none
    | none => none

end

/-- `StaticAnalyser::new`. -/
def StaticAnalyser.new : StaticAnalyser :=
  { errors := [], frames := [], current := .mk ":root" [] [] }

/-- `AstNode::traverse` run against a fresh analyser: the full single pass
followed by the terminal `done` sweep. -/
def analyse (n : AstNode) : Option StaticAnalyser :=
  match internalTraverse n StaticAnalyser.new with
  | some st => some (doneStep st)
  | none => none

/-- Diagnostics of a full run (`StaticAnalyser::errors` after `traverse`). -/
def analyseErrors (n : AstNode) : Option (List Error) :=
  (analyse n).map StaticAnalyser.errors

/-- Is a definition record a function record? -/
def isFnDef : Def → Bool
  | .fn _ _ _ => true
  | .var _ _ _ _ _ => false

/-- Does a scope map hold only function records? -/
def allFnDefs (ds : List (String × Def)) : Bool :=
  ds.all fun p => isFnDef p.2

/-- Mutators that leave function records untouched (all three closures of the
analyser do). -/
def fnIdentity {α : Type} (f : Def → Def × α) : Prop :=
  ∀ d, isFnDef d = true → (f d).1 = d

/-- Number of scopes an observation pushes: one for a function expression,
none otherwise. -/
def fnDelta : Ast → Nat
  | .functionExpr _ _ _ => 1
  | _ => 0

/-- Rebuild the whole scope tree from the zipper: plug the current scope into
each ancestor frame in turn. -/
def plugged (cur : Scope) (fr : Scope) : Scope :=
  .mk fr.name (fr.children ++ [cur]) fr.defs

def rootOf (cur : Scope) : List Scope → Scope
  | [] => cur
  | fr :: rest => rootOf (plugged cur fr) rest

/-- Constant spans for the concrete example programs. -/
def spn (k : Nat) : Span :=
  ⟨k, k + 1, 1⟩

/-- Program `x = 1` with `x` never declared. -/
def exC1 : AstNode :=
  (spn 0, .binOp .assign (spn 1, .referenceExpr "x") (spn 2, .number 1))

/-- Program `var c = function h(){}; c()` (this language has no anonymous
function literals: the grammar demands a name after the keyword, so the
initializer carries the fresh name `h`). -/
def exC2 : AstNode :=
  (spn 0, .block [
    (spn 1, .variableDef "c" (some (spn 2, .functionExpr "h" [] []))),
    (spn 3, .functionCall "c" [])])

/-- Program `g(); function g(){}` (sibling call before the declaration). -/
def exC4call1st : AstNode :=
  (spn 0, .block [
    (spn 1, .functionCall "g" []),
    (spn 2, .functionExpr "g" [] [])])

/-- Program `function g(){}; g()` (sibling call after the declaration). -/
def exC4decl1st : AstNode :=
  (spn 0, .block [
    (spn 2, .functionExpr "g" [] []),
    (spn 1, .functionCall "g" [])])

/-- Program `var a; a = 1;`. -/
def exC9 : AstNode :=
  (spn 0, .block [
    (spn 1, .variableDef "a" none),
    (spn 2, .binOp .assign (spn 3, .referenceExpr "a") (spn 4, .number 1))])

/-- Analyser state holding a unary function `f` and a callable variable `v`
in the root scope. -/
def stC5 : StaticAnalyser :=
  { errors := [], frames := [],
    current := .mk ":root" []
      [("f", .fn (spn 0) "f" 1), ("v", .var (spn 2) "v" true false true)] }

/-- Analyser state whose root scope binds only the function `f`. -/
def stC10 : StaticAnalyser :=
  { errors := [], frames := [],
    current := .mk ":root" [] [("f", .fn (spn 0) "f" 0)] }

/-- Inner scope shadowing `x` with an undefined, unused variable. -/
def innerC6 : Scope :=
  .mk "inner" [] [("x", .var (spn 0) "x" false false false)]

/-- Outer scope binding its own `x`, defined and used. -/
def outerC6 : Scope :=
  .mk ":root" [] [("x", .var (spn 1) "x" true true false)]

@[simp] theorem scope_name (n : String) (c : List Scope) (d : List (String × Def)) :
    (Scope.mk n c d).name = n := rfl

@[simp] theorem scope_children (n : String) (c : List Scope) (d : List (String × Def)) :
    (Scope.mk n c d).children = c := rfl

@[simp] theorem scope_defs (n : String) (c : List Scope) (d : List (String × Def)) :
    (Scope.mk n c d).defs = d := rfl

@[simp] theorem scopeSetDef_defs (s : Scope) (name : String) (d : Def) :
    (scopeSetDef s name d).defs = setDef s.defs name d := by
  cases s
  rfl

theorem lookupDef_setDef_self (l : List (String × Def)) (name : String) (d : Def)
    (h : lookupDef l name = some d) : setDef l name d = l := by
  induction l with
  | nil => rfl
  | cons p rest ih =>
    obtain ⟨k, v⟩ := p
    by_cases hk : k = name
    · simp only [lookupDef, hk, if_pos rfl] at h
      simp [setDef, hk, Option.some_inj.mp h]
    · simp only [lookupDef, if_neg hk] at h
      simp [setDef, hk, ih h]

theorem scopeSetDef_self (s : Scope) (name : String) (d : Def)
    (h : lookupDef s.defs name = some d) : scopeSetDef s name d = s := by
  cases s with
  | mk n c ds => simp [scopeSetDef, lookupDef_setDef_self ds name d h]

theorem lookupDef_setDef_found (l : List (String × Def)) (name : String) (d d0 : Def)
    (h : lookupDef l name = some d0) : lookupDef (setDef l name d) name = some d := by
  induction l with
  | nil => simp [lookupDef] at h
  | cons p rest ih =>
    obtain ⟨k, v⟩ := p
    by_cases hk : k = name
    · simp [setDef, lookupDef, hk]
    · simp only [lookupDef, if_neg hk] at h
      simp [setDef, lookupDef, hk, ih h]

theorem lookupDef_allFn (ds : List (String × Def)) (name : String) (d : Def)
    (hall : allFnDefs ds = true) (h : lookupDef ds name = some d) : isFnDef d = true := by
  induction ds with
  | nil => simp [lookupDef] at h
  | cons p rest ih =>
    obtain ⟨k, v⟩ := p
    simp only [allFnDefs, List.all_cons, Bool.and_eq_true] at hall
    by_cases hk : k = name
    · simp only [lookupDef, if_pos hk] at h
      exact Option.some_inj.mp h ▸ hall.1
    · simp only [lookupDef, if_neg hk] at h
      exact ih (by simpa [allFnDefs] using hall.2) h

theorem framesGetMut_of_resolve_none {α : Type} (name : String) (f : Def → Def × α)
    (frames : List Scope) (h : framesResolve name frames = none) :
    framesGetMut name f frames = none := by
  induction frames with
  | nil => rfl
  | cons fr rest ih =>
    simp only [framesResolve] at h
    simp only [framesGetMut]
    cases hl : lookupDef fr.defs name with
    | some d => simp [hl] at h
    | none =>
      simp only [hl] at h
      simp [ih h]

theorem framesGetMut_of_resolve_some {α : Type} (name : String) (f : Def → Def × α)
    (frames : List Scope) (d : Def) (h : framesResolve name frames = some d) :
    ∃ frames2, framesGetMut name f frames = some (frames2, (f d).2) ∧
      framesResolve name frames2 = some (f d).1 ∧
      frames2.length = frames.length ∧
      ((f d).1 = d → frames2 = frames) := by
  induction frames with
  | nil => simp [framesResolve] at h
  | cons fr rest ih =>
    simp only [framesResolve] at h
    cases hl : lookupDef fr.defs name with
    | some d0 =>
      simp only [hl, Option.some_inj] at h
      have hl2 : lookupDef fr.defs name = some d := h ▸ hl
      refine ⟨scopeSetDef fr name (f d).1 :: rest, ?_, ?_, ?_, ?_⟩
      · simp [framesGetMut, hl2]
      · simp [framesResolve, lookupDef_setDef_found fr.defs name (f d).1 d hl2]
      · simp
      · intro hid
        simp [hid, scopeSetDef_self fr name d hl2]
    | none =>
      simp only [hl] at h
      obtain ⟨rest2, h1, h2, h3, h4⟩ := ih h
      refine ⟨fr :: rest2, ?_, ?_, ?_, ?_⟩
      · simp [framesGetMut, hl, h1]
      · simp [framesResolve, hl, h2]
      · simp [h3]
      · intro hid
        simp [h4 hid]

theorem getMut_of_resolve_none {α : Type} (name : String) (f : Def → Def × α)
    (cur : Scope) (frames : List Scope) (h : resolve name cur frames = none) :
    getMut name f cur frames = none := by
  simp only [resolve] at h
  cases hl : lookupDef cur.defs name with
  | some d => simp [hl] at h
  | none =>
    simp only [hl] at h
    simp [getMut, hl, framesGetMut_of_resolve_none name f frames h]

theorem getMut_of_resolve_some {α : Type} (name : String) (f : Def → Def × α)
    (cur : Scope) (frames : List Scope) (d : Def) (h : resolve name cur frames = some d) :
    ∃ cur2 frames2, getMut name f cur frames = some (cur2, frames2, (f d).2) ∧
      resolve name cur2 frames2 = some (f d).1 ∧
      frames2.length = frames.length ∧
      ((f d).1 = d → cur2 = cur ∧ frames2 = frames) := by
  simp only [resolve] at h
  cases hl : lookupDef cur.defs name with
  | some d0 =>
    simp only [hl, Option.some_inj] at h
    have hl2 : lookupDef cur.defs name = some d := h ▸ hl
    refine ⟨scopeSetDef cur name (f d).1, frames, ?_, ?_, rfl, ?_⟩
    · simp [getMut, hl2]
    · simp [resolve, lookupDef_setDef_found cur.defs name (f d).1 d hl2]
    · intro hid
      simp [hid, scopeSetDef_self cur name d hl2]
  | none =>
    simp only [hl] at h
    obtain ⟨frames2, h1, h2, h3, h4⟩ := framesGetMut_of_resolve_some name f frames d h
    refine ⟨cur, frames2, ?_, ?_, h3, ?_⟩
    · simp [getMut, hl, h1]
    · simp [resolve, hl, h2]
    · intro hid
      simp [h4 hid]

theorem framesGetMut_len {α : Type} (name : String) (f : Def → Def × α)
    (frames frames2 : List Scope) (a : α)
    (h : framesGetMut name f frames = some (frames2, a)) :
    frames2.length = frames.length := by
  induction frames generalizing frames2 a with
  | nil => simp [framesGetMut] at h
  | cons fr rest ih =>
    simp only [framesGetMut] at h
    cases hl : lookupDef fr.defs name with
    | some d =>
      simp only [hl, Option.some_inj, Prod.mk.injEq] at h
      obtain ⟨h1, -⟩ := h
      simp [← h1]
    | none =>
      simp only [hl] at h
      cases hr : framesGetMut name f rest with
      | none => simp [hr] at h
      | some p =>
        obtain ⟨rest2, a2⟩ := p
        simp only [hr, Option.some_inj, Prod.mk.injEq] at h
        obtain ⟨h1, -⟩ := h
        simp [← h1, ih rest2 a2 hr]

theorem getMut_len {α : Type} (name : String) (f : Def → Def × α)
    (cur : Scope) (frames : List Scope) (cur2 : Scope) (frames2 : List Scope) (a : α)
    (h : getMut name f cur frames = some (cur2, frames2, a)) :
    frames2.length = frames.length := by
  simp only [getMut] at h
  cases hl : lookupDef cur.defs name with
  | some d =>
    simp only [hl, Option.some_inj, Prod.mk.injEq] at h
    obtain ⟨-, h2, -⟩ := h
    simp [← h2]
  | none =>
    simp only [hl] at h
    cases hr : framesGetMut name f frames with
    | none => simp [hr] at h
    | some p =>
      obtain ⟨fr2, a2⟩ := p
      simp only [hr, Option.some_inj, Prod.mk.injEq] at h
      obtain ⟨-, h2, -⟩ := h
      rw [← h2]
      exact framesGetMut_len name f frames fr2 a2 hr

theorem refMut_fnIdentity : fnIdentity refMut := by
  intro d hd
  cases d with
  | var => simp [isFnDef] at hd
  | fn => rfl

theorem callMut_fnIdentity : fnIdentity callMut := by
  intro d hd
  cases d with
  | var => simp [isFnDef] at hd
  | fn => rfl

theorem assignMut_fnIdentity : fnIdentity assignMut := by
  intro d hd
  cases d with
  | var => simp [isFnDef] at hd
  | fn => rfl

theorem framesGetMut_bottom {α : Type} (name : String) (f : Def → Def × α)
    (hf : fnIdentity f) (l : List Scope) (fr : Scope) (hfr : allFnDefs fr.defs = true) :
    framesGetMut name f (l ++ [fr]) = none ∨
      ∃ l2 a, framesGetMut name f (l ++ [fr]) = some (l2 ++ [fr], a) ∧
        l2.length = l.length := by
  induction l with
  | nil =>
    simp only [List.nil_append, framesGetMut]
    cases hl : lookupDef fr.defs name with
    | some d =>
      right
      have hfn := lookupDef_allFn fr.defs name d hfr hl
      refine ⟨[], (f d).2, ?_, rfl⟩
      simp [hf d hfn, scopeSetDef_self fr name d hl]
    | none =>
      left
      rfl
  | cons g rest ih =>
    simp only [List.cons_append, framesGetMut]
    cases hl : lookupDef g.defs name with
    | some d =>
      right
      exact ⟨scopeSetDef g name (f d).1 :: rest, (f d).2, rfl, rfl⟩
    | none =>
      cases ih with
      | inl hnone =>
        left
        simp [hnone]
      | inr hsome =>
        obtain ⟨l2, a, h1, h2⟩ := hsome
        right
        refine ⟨g :: l2, a, ?_, by simp [h2]⟩
        simp [h1]

theorem getMut_bottom {α : Type} (name : String) (f : Def → Def × α)
    (hf : fnIdentity f) (cur : Scope) (l : List Scope) (fr : Scope)
    (hfr : allFnDefs fr.defs = true) :
    getMut name f cur (l ++ [fr]) = none ∨
      ∃ cur2 l2 a, getMut name f cur (l ++ [fr]) = some (cur2, l2 ++ [fr], a) ∧
        l2.length = l.length := by
  simp only [getMut]
  cases hl : lookupDef cur.defs name with
  | some d =>
    right
    exact ⟨scopeSetDef cur name (f d).1, l, (f d).2, rfl, rfl⟩
  | none =>
    cases framesGetMut_bottom name f hf l fr hfr with
    | inl hnone =>
      left
      simp [hnone]
    | inr hsome =>
      obtain ⟨l2, a, h1, h2⟩ := hsome
      right
      exact ⟨cur, l2, a, by simp [h1], h2⟩

/-- Frame discipline of a single observation: a function expression pushes
exactly one frame, every other node pushes none, and a frame of
function-only records sitting at the bottom of the chain is never altered. -/
theorem observe_frames_inv (span : Span) (a : Ast) (st : StaticAnalyser) :
    (observe span a st).frames.length = st.frames.length + fnDelta a ∧
    (∀ l fr, st.frames = l ++ [fr] → allFnDefs fr.defs = true →
      ∃ l2, (observe span a st).frames = l2 ++ [fr] ∧
        l2.length = l.length + fnDelta a) := by
  cases a with
  | string s => exact ⟨rfl, fun l fr h _ => ⟨l, by simp [observe, h], rfl⟩⟩
  | number v => exact ⟨rfl, fun l fr h _ => ⟨l, by simp [observe, h], rfl⟩⟩
  | block exprs => exact ⟨rfl, fun l fr h _ => ⟨l, by simp [observe, h], rfl⟩⟩
  | variableDef name value =>
    exact ⟨rfl, fun l fr h _ => ⟨l, by simp [observe, h], rfl⟩⟩
  | functionExpr name params body =>
    constructor
    · simp [observe, fnDelta]
    · intro l fr h _
      refine ⟨scopeInsertDef st.current name (.fn span name params.length) :: l, ?_, ?_⟩
      · simp [observe, h]
      · simp [fnDelta]
  | referenceExpr name =>
    constructor
    · cases hg : getMut name refMut st.current st.frames with
      | none => simp [observe, hg, fnDelta]
      | some p =>
        obtain ⟨cur2, frames2, u⟩ := p
        have hlen := getMut_len name refMut st.current st.frames cur2 frames2 u hg
        cases u <;> simp [observe, hg, fnDelta, hlen]
    · intro l fr h hfr
      rcases getMut_bottom name refMut refMut_fnIdentity st.current l fr hfr
        with hnone | hsome
      · exact ⟨l, by simp [observe, hnone, h], by simp [fnDelta]⟩
      · obtain ⟨cur2, l2, u, h1, h2⟩ := hsome
        rw [← h] at h1
        refine ⟨l2, ?_, by simp [fnDelta, h2]⟩
        cases u <;> simp [observe, h1]
  | functionCall name args =>
    constructor
    · cases hg : getMut name callMut st.current st.frames with
      | none => simp [observe, hg, fnDelta]
      | some p =>
        obtain ⟨cur2, frames2, a⟩ := p
        have hlen := getMut_len name callMut st.current st.frames cur2 frames2 a hg
        rcases a with _ | (_ | arity)
        · simp [observe, hg, fnDelta, hlen]
        · simp [observe, hg, fnDelta, hlen]
        · by_cases hn : args.length ≠ arity <;> simp [observe, hg, fnDelta, hlen, hn]
    · intro l fr h hfr
      rcases getMut_bottom name callMut callMut_fnIdentity st.current l fr hfr
        with hnone | hsome
      · exact ⟨l, by simp [observe, hnone, h], by simp [fnDelta]⟩
      · obtain ⟨cur2, l2, a, h1, h2⟩ := hsome
        rw [← h] at h1
        refine ⟨l2, ?_, by simp [fnDelta, h2]⟩
        rcases a with _ | (_ | arity)
        · simp [observe, h1]
        · simp [observe, h1]
        · by_cases hn : args.length ≠ arity <;> simp [observe, h1, hn]
  | binOp op lhs rhs =>
    cases op
    case assign =>
      obtain ⟨lspan, le⟩ := lhs
      cases le
      case referenceExpr name =>
        constructor
        · cases hg : getMut name assignMut st.current st.frames with
          | none => simp [observe, hg, fnDelta]
          | some p =>
            obtain ⟨cur2, frames2, u⟩ := p
            have hlen := getMut_len name assignMut st.current st.frames cur2 frames2 u hg
            simp [observe, hg, fnDelta, hlen]
        · intro l fr h hfr
          rcases getMut_bottom name assignMut assignMut_fnIdentity st.current l fr hfr
            with hnone | hsome
          · exact ⟨l, by simp [observe, hnone, h], by simp [fnDelta]⟩
          · obtain ⟨cur2, l2, u, h1, h2⟩ := hsome
            rw [← h] at h1
            exact ⟨l2, by simp [observe, h1], by simp [fnDelta, h2]⟩
      all_goals exact ⟨rfl, fun l fr h _ => ⟨l, h, rfl⟩⟩
    all_goals exact ⟨rfl, fun l fr h _ => ⟨l, h, rfl⟩⟩

theorem fnDelta_cases (a : Ast) : fnDelta a = 0 ∨ fnDelta a = 1 := by
  cases a <;> simp [fnDelta]

theorem backtrack_id (fromAst toAst : Ast) (st : StaticAnalyser) (h : fnDelta fromAst = 0) :
    backtrack fromAst toAst st = some st := by
  cases fromAst <;> simp [fnDelta] at h <;> rfl

theorem backtrack_pop (name : String) (params : List String) (body : List AstNode)
    (toAst : Ast) (st : StaticAnalyser) (fr : Scope) (rest : List Scope)
    (h : st.frames = fr :: rest) :
    backtrack (.functionExpr name params body) toAst st =
      some { errors := st.errors, frames := rest,
             current := .mk fr.name (fr.children ++ [st.current]) fr.defs } := by
  simp [backtrack, h]

/-- Leaving a finished child: a non-function child is a no-op, a function
child pops the frame its observation pushed, so the frame count returns to
the value before the child was entered and a function-only bottom frame
survives untouched. -/
theorem backtrack_child_inv (ca parent : Ast) (st2 : StaticAnalyser) (F : List Scope)
    (hlen : st2.frames.length = F.length + fnDelta ca)
    (hbot : ∀ l fr, F = l ++ [fr] → allFnDefs fr.defs = true →
      ∃ l2, st2.frames = l2 ++ [fr] ∧ l2.length = l.length + fnDelta ca) :
    ∃ st3, backtrack ca parent st2 = some st3 ∧
      st3.frames.length = F.length ∧
      (∀ l fr, F = l ++ [fr] → allFnDefs fr.defs = true →
        ∃ l2, st3.frames = l2 ++ [fr] ∧ l2.length = l.length) := by
  rcases fnDelta_cases ca with h0 | h1
  · refine ⟨st2, backtrack_id ca parent st2 h0, ?_, ?_⟩
    · rw [hlen, h0, Nat.add_zero]
    · intro l fr hF hfr
      obtain ⟨l2, hst2, hl2⟩ := hbot l fr hF hfr
      exact ⟨l2, hst2, by rw [hl2, h0, Nat.add_zero]⟩
  · obtain ⟨nm, ps, bd, hca⟩ : ∃ nm ps bd, ca = Ast.functionExpr nm ps bd := by
      cases ca <;> first | exact ⟨_, _, _, rfl⟩ | simp [fnDelta] at h1
    subst hca
    obtain ⟨fr2, rest2, hfrm⟩ : ∃ fr2 rest2, st2.frames = fr2 :: rest2 := by
      cases hc : st2.frames with
      | nil => rw [hc] at hlen; simp [h1] at hlen
      | cons a b => exact ⟨a, b, rfl⟩
    refine ⟨_, backtrack_pop nm ps bd parent st2 fr2 rest2 hfrm, ?_, ?_⟩
    · have hr : st2.frames.length = rest2.length + 1 := by rw [hfrm]; rfl
      rw [hr, h1] at hlen
      show rest2.length = F.length
      omega
    · intro l fr hF hfr
      obtain ⟨l2, hst2, hl2⟩ := hbot l fr hF hfr
      cases l2 with
      | nil =>
        rw [h1] at hl2
        simp at hl2
      | cons x l2t =>
        rw [hfrm] at hst2
        simp only [List.cons_append] at hst2
        injection hst2 with hx ht
        refine ⟨l2t, ht, ?_⟩
        rw [h1] at hl2
        simp at hl2
        omega

mutual

/-- Traversal invariant for one node: the traversal never hits the fatal
backtrack, a function-expression node leaves exactly one extra frame pushed
(its own body scope, awaiting the parent's backtrack) and any other node
leaves the frame count unchanged; a bottom frame holding only function
records survives the subtree untouched. -/
theorem internalTraverse_inv (n : AstNode) (st : StaticAnalyser) :
    ∃ st2, internalTraverse n st = some st2 ∧
      st2.frames.length = st.frames.length + fnDelta n.2 ∧
      (∀ l fr, st.frames = l ++ [fr] → allFnDefs fr.defs = true →
        ∃ l2, st2.frames = l2 ++ [fr] ∧ l2.length = l.length + fnDelta n.2) := by
  obtain ⟨span, expr⟩ := n
  obtain ⟨holen, hobot⟩ := observe_frames_inv span expr st
  cases expr with
  | string s => exact ⟨_, rfl, holen, hobot⟩
  | number v => exact ⟨_, rfl, holen, hobot⟩
  | referenceExpr name => exact ⟨_, rfl, holen, hobot⟩
  | functionCall name args =>
    obtain ⟨st2, h1, h2, h3⟩ := traverseList_inv (.functionCall name args) args
      (observe span (.functionCall name args) st)
    refine ⟨st2, h1, ?_, ?_⟩
    · rw [h2, holen]
    · intro l fr hF hfr
      obtain ⟨l1, hb1, hl1⟩ := hobot l fr hF hfr
      obtain ⟨l2, hb2, hl2⟩ := h3 l1 fr hb1 hfr
      exact ⟨l2, hb2, by rw [hl2, hl1]⟩
  | block exprs =>
    obtain ⟨st2, h1, h2, h3⟩ := traverseList_inv (.block exprs) exprs
      (observe span (.block exprs) st)
    refine ⟨st2, h1, ?_, ?_⟩
    · rw [h2, holen]
    · intro l fr hF hfr
      obtain ⟨l1, hb1, hl1⟩ := hobot l fr hF hfr
      obtain ⟨l2, hb2, hl2⟩ := h3 l1 fr hb1 hfr
      exact ⟨l2, hb2, by rw [hl2, hl1]⟩
  | functionExpr name params body =>
    obtain ⟨st2, h1, h2, h3⟩ := traverseList_inv (.functionExpr name params body) body
      (observe span (.functionExpr name params body) st)
    refine ⟨st2, h1, ?_, ?_⟩
    · rw [h2, holen]
    · intro l fr hF hfr
      obtain ⟨l1, hb1, hl1⟩ := hobot l fr hF hfr
      obtain ⟨l2, hb2, hl2⟩ := h3 l1 fr hb1 hfr
      exact ⟨l2, hb2, by rw [hl2, hl1]⟩
  | variableDef name value =>
    cases value with
    | none => exact ⟨_, rfl, holen, hobot⟩
    | some v =>
      obtain ⟨st2, hv1, hv2, hv3⟩ := internalTraverse_inv v
        (observe span (.variableDef name (some v)) st)
      obtain ⟨st3, hb1, hb2, hb3⟩ := backtrack_child_inv v.2 (.variableDef name (some v)) st2
        (observe span (.variableDef name (some v)) st).frames hv2 hv3
      refine ⟨st3, ?_, ?_, ?_⟩
      · have hstep : internalTraverse (span, Ast.variableDef name (some v)) st =
          match internalTraverse v (observe span (.variableDef name (some v)) st) with
          | some s2 => backtrack v.2 (.variableDef name (some v)) s2
          | none => none := rfl
        rw [hstep]
        simp only [hv1]
        exact hb1
      · rw [hb2, holen]
      · intro l fr hF hfr
        obtain ⟨l1, hq1, hq2⟩ := hobot l fr hF hfr
        obtain ⟨l2, hq3, hq4⟩ := hb3 l1 fr hq1 hfr
        exact ⟨l2, hq3, by rw [hq4, hq2]⟩
  | binOp op lhs rhs =>
    obtain ⟨st2, hA1, hA2, hA3⟩ := internalTraverse_inv lhs
      (observe span (.binOp op lhs rhs) st)
    obtain ⟨st3, hB1, hB2, hB3⟩ := backtrack_child_inv lhs.2 (.binOp op lhs rhs) st2
      (observe span (.binOp op lhs rhs) st).frames hA2 hA3
    obtain ⟨st4, hC1, hC2, hC3⟩ := internalTraverse_inv rhs st3
    obtain ⟨st5, hD1, hD2, hD3⟩ := backtrack_child_inv rhs.2 (.binOp op lhs rhs) st4
      st3.frames hC2 hC3
    refine ⟨st5, ?_, ?_, ?_⟩
    · have hstep : internalTraverse (span, Ast.binOp op lhs rhs) st =
        match internalTraverse lhs (observe span (.binOp op lhs rhs) st) with
        | some s2 =>
          match backtrack lhs.2 (.binOp op lhs rhs) s2 with
          | some s3 =>
            match internalTraverse rhs s3 with
            | some s4 => backtrack rhs.2 (.binOp op lhs rhs) s4
            | none => none
          | none => none
        | none => none := rfl
      rw [hstep]
      simp only [hA1, hB1, hC1]
      exact hD1
    · rw [hD2, hB2, holen]
    · intro l fr hF hfr
      obtain ⟨l1, hq1, hq2⟩ := hobot l fr hF hfr
      obtain ⟨l2, hq3, hq4⟩ := hB3 l1 fr hq1 hfr
      obtain ⟨l3, hq5, hq6⟩ := hD3 l2 fr hq3 hfr
      exact ⟨l3, hq5, by rw [hq6, hq4, hq2]⟩

/-- Traversal invariant for a run of sibling children with their backtrack
edges: the frame count is restored after every child, and a function-only
bottom frame survives. -/
theorem traverseList_inv (parent : Ast) (cs : List AstNode) (st : StaticAnalyser) :
    ∃ st2, traverseList parent cs st = some st2 ∧
      st2.frames.length = st.frames.length ∧
      (∀ l fr, st.frames = l ++ [fr] → allFnDefs fr.defs = true →
        ∃ l2, st2.frames = l2 ++ [fr] ∧ l2.length = l.length) := by
  cases cs with
  | nil => exact ⟨st, rfl, rfl, fun l fr h _ => ⟨l, h, rfl⟩⟩
  | cons c rest =>
    obtain ⟨st2, h1, h2, h3⟩ := internalTraverse_inv c st
    obtain ⟨st3, hb1, hb2, hb3⟩ := backtrack_child_inv c.2 parent st2 st.frames h2 h3
    obtain ⟨st4, hr1, hr2, hr3⟩ := traverseList_inv parent rest st3
    refine ⟨st4, ?_, ?_, ?_⟩
    · have hstep : traverseList parent (c :: rest) st =
        match internalTraverse c st with
        | some s2 =>
          match backtrack c.2 parent s2 with
          | some s3 => traverseList parent rest s3
          | none => none
        | none => none := rfl
      rw [hstep]
      simp only [h1, hb1]
      exact hr1
    · rw [hr2, hb2]
    · intro l fr hF hfr
      obtain ⟨l2, hq1, hq2⟩ := hb3 l fr hF hfr
      obtain ⟨l3, hq3, hq4⟩ := hr3 l2 fr hq1 hfr
      exact ⟨l3, hq3, by rw [hq4, hq2]⟩

end

theorem unusedOfDefs_mem (ds : List (String × Def)) (d : Def) (h : d ∈ unusedOfDefs ds) :
    ∃ sp nm df cb, d = .var sp nm df false cb := by
  induction ds with
  | nil => simp [unusedOfDefs] at h
  | cons p rest ih =>
    obtain ⟨k, v⟩ := p
    cases v with
    | fn s n a => exact ih (by simpa [unusedOfDefs] using h)
    | var s n df us cb =>
      cases us with
      | true => exact ih (by simpa [unusedOfDefs] using h)
      | false =>
        rcases (by simpa [unusedOfDefs] using h : d = Def.var s n df false cb ∨
            d ∈ unusedOfDefs rest) with h1 | h2
        · exact ⟨s, n, df, cb, h1⟩
        · exact ih h2

mutual

theorem allUnused_mem (s : Scope) (d : Def) (h : d ∈ allUnused s) :
    ∃ sp nm df cb, d = .var sp nm df false cb := by
  cases s with
  | mk n children defs =>
    rcases List.mem_append.mp (by simpa [allUnused] using h) with h1 | h2
    · exact unusedOfDefs_mem defs d h1
    · exact allUnusedList_mem children d h2

theorem allUnusedList_mem (l : List Scope) (d : Def) (h : d ∈ allUnusedList l) :
    ∃ sp nm df cb, d = .var sp nm df false cb := by
  cases l with
  | nil => simp [allUnusedList] at h
  | cons c cs =>
    rcases List.mem_append.mp (by simpa [allUnusedList] using h) with h1 | h2
    · exact allUnused_mem c d h1
    · exact allUnusedList_mem cs d h2

end

/-- A full run from a fresh analyser never aborts, and at `done` time the
sweep of the current scope coincides with the sweep of the whole rebuilt
tree: the traversal is balanced, so either the zipper is fully zipped
(current is the root) or the program is a single top-level function
expression, whose root frame holds only the one function record. -/
theorem analyse_run (n : AstNode) :
    ∃ st, internalTraverse n StaticAnalyser.new = some st ∧
      analyse n = some (doneStep st) ∧
      allUnused (rootOf st.current st.frames) = allUnused st.current := by
  obtain ⟨span, expr⟩ := n
  rcases fnDelta_cases expr with h0 | h1
  · obtain ⟨st, ht, hlen, -⟩ := internalTraverse_inv (span, expr) StaticAnalyser.new
    have hf : st.frames.length = 0 := by
      rw [hlen, h0]
      rfl
    have hfe : st.frames = [] := List.length_eq_zero.mp hf
    refine ⟨st, ht, ?_, ?_⟩
    · simp [analyse, ht]
    · rw [hfe]
      rfl
  · obtain ⟨nm, ps, bd, hca⟩ : ∃ nm ps bd, expr = Ast.functionExpr nm ps bd := by
      cases expr <;> first | exact ⟨_, _, _, rfl⟩ | simp [fnDelta] at h1
    subst hca
    obtain ⟨st, ht, hlen, hbot⟩ := traverseList_inv (.functionExpr nm ps bd) bd
      (observe span (.functionExpr nm ps bd) StaticAnalyser.new)
    have hfull : internalTraverse (span, Ast.functionExpr nm ps bd) StaticAnalyser.new =
        some st := ht
    have hfr0 : (observe span (.functionExpr nm ps bd) StaticAnalyser.new).frames =
        [] ++ [Scope.mk ":root" [] [(nm, .fn span nm ps.length)]] := rfl
    obtain ⟨l2, hdec, hl2⟩ := hbot [] (Scope.mk ":root" [] [(nm, .fn span nm ps.length)])
      hfr0 (by simp [allFnDefs, isFnDef])
    have hl2e : l2 = [] := List.length_eq_zero.mp hl2
    rw [hl2e, List.nil_append] at hdec
    refine ⟨st, hfull, ?_, ?_⟩
    · simp [analyse, hfull]
    · rw [hdec]
      simp [rootOf, plugged, allUnused, allUnusedList, unusedOfDefs]


theorem lookupDef_append_self (ds : List (String × Def)) (name : String) (d : Def)
    (h : lookupDef ds name = none) : lookupDef (ds ++ [(name, d)]) name = some d := by
  induction ds with
  | nil => simp [lookupDef]
  | cons p rest ih =>
    obtain ⟨k, v⟩ := p
    by_cases hk : k = name
    · simp [lookupDef, hk] at h
    · simp only [lookupDef, if_neg hk] at h
      simp [lookupDef, hk, ih h]

theorem lookupDef_insertDef (ds : List (String × Def)) (name : String) (d : Def) :
    lookupDef (insertDef ds name d) name = some d := by
  unfold insertDef
  cases hl : lookupDef ds name with
  | some d0 => simp [hl, lookupDef_setDef_found ds name d d0 hl]
  | none => simp [hl, lookupDef_append_self ds name d hl]

theorem framesGetMut_middle {α : Type} (name : String) (f : Def → Def × α)
    (l : List Scope) (fr : Scope) (rest : List Scope) (d : Def)
    (hl : ∀ g ∈ l, lookupDef g.defs name = none)
    (hfr : lookupDef fr.defs name = some d) :
    framesGetMut name f (l ++ fr :: rest) =
      some (l ++ scopeSetDef fr name (f d).1 :: rest, (f d).2) := by
  induction l with
  | nil => simp [framesGetMut, hfr]
  | cons g gs ih =>
    have hg : lookupDef g.defs name = none := hl g (List.mem_cons_self g gs)
    simp [framesGetMut, hg, ih (fun x hx => hl x (List.mem_cons_of_mem g hx))]

/-- Claim C1, counterexample: for the offending assignment `x = 1` (the name
`x` is never declared), the single traversal emits `UsingUndefinedVariable`
twice while observing the assignment occurrence and its subnodes — once at
the assignment node and once at its left-hand-side reference — not exactly
once as the claim states. -/
theorem c1_counterexample :
    analyseErrors exC1 =
      some [.usingUndefinedVariable "x" (spn 0), .usingUndefinedVariable "x" (spn 1)] ∧
    ((analyseErrors exC1).getD []).countP
      (fun e => match e with
        | .usingUndefinedVariable _ _ => true
        | _ => false) = 2 := by
  constructor <;> rfl

/-- Claim C1 (amended): a bare-name reference that no reachable declaration
binds emits `UsingUndefinedVariable` exactly once, at the reference
observation; an assignment whose left-hand side is such an unbound bare name
emits two diagnostics across the occurrence and its subnodes — one at the
assignment node, one at the left-hand-side reference (a literal right-hand
side emits none). -/
theorem c1_amended (st : StaticAnalyser) (sp spl spr : Span) (x : String) (k : Int)
    (h : resolve x st.current st.frames = none) :
    internalTraverse (sp, .referenceExpr x) st =
      some { st with errors := st.errors ++ [.usingUndefinedVariable x sp] } ∧
    internalTraverse (sp, .binOp .assign (spl, .referenceExpr x) (spr, .number k)) st =
      some { st with errors := st.errors ++
        [.usingUndefinedVariable x sp, .usingUndefinedVariable x spl] } := by
  have hgr := getMut_of_resolve_none x refMut st.current st.frames h
  have hga := getMut_of_resolve_none x assignMut st.current st.frames h
  constructor
  · show some (observe sp (.referenceExpr x) st) = _
    simp [observe, hgr]
  · show some (observe spl (.referenceExpr x)
        (observe sp (.binOp .assign (spl, .referenceExpr x) (spr, .number k)) st)) = _
    have hobs1 : observe sp (.binOp .assign (spl, .referenceExpr x) (spr, .number k)) st =
        { st with errors := st.errors ++ [.usingUndefinedVariable x sp] } := by
      simp [observe, hga]
    rw [hobs1]
    simp [observe, hgr]

/-- Claim C1 amended, witness: the two conjuncts instantiated on a fresh
analyser with the unbound name `x`. -/
theorem c1_amended_witness :
    internalTraverse (spn 0, .referenceExpr "x") StaticAnalyser.new =
      some { StaticAnalyser.new with errors := [.usingUndefinedVariable "x" (spn 0)] } ∧
    internalTraverse (spn 0, .binOp .assign (spn 1, .referenceExpr "x")
        (spn 2, .number 1)) StaticAnalyser.new =
      some { StaticAnalyser.new with errors :=
        [.usingUndefinedVariable "x" (spn 0), .usingUndefinedVariable "x" (spn 1)] } := by
  have h := c1_amended StaticAnalyser.new (spn 0) (spn 1) (spn 2) "x" 1 rfl
  simpa [StaticAnalyser.new] using h

/-- Claim C2, counterexample: analysing `var c = function h(){}; c()` does
not yield an empty diagnostic list, contrary to the claim. -/
theorem c2_counterexample : analyseErrors exC2 ≠ some [] := by
  decide

/-- Claim C2 (amended): analysing `var c = function h(){}; c()` yields
exactly one diagnostic, `UnusedVariable` for `c`: the call through the
callable-bound variable is accepted without arity validation (no
call-related diagnostic), but calls never set the callee variable's `used`
flag, so the terminal sweep reports `c` as unused. -/
theorem c2_amended : analyseErrors exC2 = some [.unusedVariable "c" (spn 1)] := by
  rfl

/-- Claim C3: on every full run, `done` appends to the diagnostics gathered
during traversal exactly the image of the depth-first unused sweep of the
whole rebuilt scope tree — one `UnusedVariable` per collected record, in
depth-first scope order, at any nesting depth — and every collected record
is a Variable with `used = false`; Function records are never collected. -/
theorem c3_done_sweep (n : AstNode) :
    ∃ st, internalTraverse n StaticAnalyser.new = some st ∧
      analyse n = some (doneStep st) ∧
      (doneStep st).errors = st.errors ++
        (allUnused (rootOf st.current st.frames)).filterMap (fun d =>
          match d with
          | .var span name _ _ _ => some (.unusedVariable name span)
          | .fn _ _ _ => none) ∧
      (∀ d ∈ allUnused (rootOf st.current st.frames),
        ∃ sp nm df cb, d = Def.var sp nm df false cb) := by
  obtain ⟨st, h1, h2, h3⟩ := analyse_run n
  refine ⟨st, h1, h2, ?_, ?_⟩
  · rw [h3]
    rfl
  · intro d hd
    rw [h3] at hd
    exact allUnused_mem st.current d hd

/-- Claim C4, counterexample: with the sibling call placed before the
declaration (`g(); function g(){}`), the run emits
`CallingUndefinedFunction`, so the claimed order independence fails. -/
theorem c4_counterexample :
    analyseErrors exC4call1st = some [.callingUndefinedFunction "g" (spn 1)] ∧
    analyseErrors exC4call1st ≠ some [] := by
  exact ⟨rfl, by decide⟩

/-- Claim C4 (amended): a function declaration registers its Function record
(arity = parameter count) in the scope enclosing the body — that scope
becomes the pushed frame and holds the record, while the new current child
scope starts with only the parameter bindings — and an inserted record is
what lookup finds, so a sibling call observed after the declaration succeeds
(concretely, `function g(){} g()` yields no diagnostics); a sibling call
observed before the declaration instead reports `CallingUndefinedFunction`,
because the single pass has not registered the record yet. -/
theorem c4_amended :
    (∀ (span : Span) (name : String) (params : List String)
        (body : List AstNode) (st : StaticAnalyser),
      observe span (.functionExpr name params body) st =
        { errors := st.errors,
          frames := scopeInsertDef st.current name (.fn span name params.length) :: st.frames,
          current := .mk name [] (paramDefs span params) }) ∧
    (∀ (ds : List (String × Def)) (name : String) (d : Def),
      lookupDef (insertDef ds name d) name = some d) ∧
    analyseErrors exC4decl1st = some [] := by
  exact ⟨fun _ _ _ _ _ => rfl, lookupDef_insertDef, rfl⟩

/-- Claim C5: a call whose name resolves to a Function of arity `A` with `N`
supplied arguments emits exactly one `WrongNumberOfArguments` when `N ≠ A`
and none when `N = A`, leaving the scope state untouched; a call whose name
resolves to a Variable with `callable = true` is accepted unconditionally —
no diagnostic for any argument count. -/
theorem c5_call_arity (st : StaticAnalyser) (cs : Span) (name : String)
    (args : List AstNode) :
    (∀ sp nm arity, resolve name st.current st.frames = some (.fn sp nm arity) →
      observe cs (.functionCall name args) st =
        { errors := st.errors ++
            (if args.length = arity then [] else [.wrongNumberOfArguments name cs]),
          frames := st.frames, current := st.current }) ∧
    (∀ sp nm df us, resolve name st.current st.frames = some (.var sp nm df us true) →
      observe cs (.functionCall name args) st =
        { errors := st.errors, frames := st.frames, current := st.current }) := by
  constructor
  · intro sp nm arity h
    obtain ⟨cur2, frames2, hg, -, -, hid⟩ :=
      getMut_of_resolve_some name callMut st.current st.frames (.fn sp nm arity) h
    obtain ⟨hc, hf⟩ := hid rfl
    subst hc hf
    by_cases he : args.length = arity
    · simp [observe, hg, callMut, he]
    · simp [observe, hg, callMut, he]
  · intro sp nm df us h
    obtain ⟨cur2, frames2, hg, -, -, hid⟩ :=
      getMut_of_resolve_some name callMut st.current st.frames (.var sp nm df us true) h
    obtain ⟨hc, hf⟩ := hid rfl
    subst hc hf
    simp [observe, hg, callMut]

/-- Claim C5, witness: calling the unary function `f` with zero arguments
yields one `WrongNumberOfArguments`; calling the callable variable `v` with
one argument yields nothing. -/
theorem c5_witness :
    observe (spn 4) (.functionCall "f" []) stC5 =
      { errors := [.wrongNumberOfArguments "f" (spn 4)], frames := [],
        current := stC5.current } ∧
    observe (spn 5) (.functionCall "v" [(spn 6, .number 7)]) stC5 =
      { errors := [], frames := [], current := stC5.current } := by
  constructor
  · simpa [stC5] using (c5_call_arity stC5 (spn 4) "f" []).1 (spn 0) "f" 1 rfl
  · simpa [stC5] using
      (c5_call_arity stC5 (spn 5) "v" [(spn 6, .number 7)]).2 (spn 2) "v" true false rfl

/-- Claim C6: shadowing is scope-local — the resolution primitive applies
its mutation to the nearest enclosing record only: a hit in the current
scope returns every outer frame untouched (outer same-named records remain
present, unchanged, in their own scopes), and a hit in a middle frame
returns the current scope, all nearer frames, and all outer frames
untouched. -/
theorem c6_shadowing {α : Type} (f : Def → Def × α) (name : String)
    (cur : Scope) (frames : List Scope) (d : Def) :
    (lookupDef cur.defs name = some d →
      getMut name f cur frames = some (scopeSetDef cur name (f d).1, frames, (f d).2)) ∧
    (∀ l fr rest, lookupDef cur.defs name = none →
      (∀ g ∈ l, lookupDef g.defs name = none) →
      lookupDef fr.defs name = some d →
      getMut name f cur (l ++ fr :: rest) =
        some (cur, l ++ scopeSetDef fr name (f d).1 :: rest, (f d).2)) := by
  constructor
  · intro h
    simp [getMut, h]
  · intro l fr rest hcur hl hfr
    simp [getMut, hcur, framesGetMut_middle name f l fr rest d hl hfr]

/-- Claim C6, witness: marking the inner `x` defined rewrites only the inner
scope; the outer scope's `x` keeps its own flags and stays present. -/
theorem c6_witness :
    getMut "x" assignMut innerC6 [outerC6] =
      some (.mk "inner" [] [("x", .var (spn 0) "x" true false false)], [outerC6], ()) := by
  simpa [innerC6, outerC6, scopeSetDef, setDef, assignMut] using
    (c6_shadowing assignMut "x" innerC6 [outerC6] (.var (spn 0) "x" false false false)).1 rfl

/-- Claim C7: leaving a scope with no parent — a backtrack for a function
expression while the zipper holds no frames — is the fatal branch: it
produces no successor state (the embedded `panic!`) and appends no
diagnostic; and a full traversal from a fresh analyser is balanced, so it
never takes that branch: the run always completes and `done` always runs. -/
theorem c7_fatal_only_protocol :
    (∀ (nm : String) (ps : List String) (bd : List AstNode) (other : Ast)
        (st : StaticAnalyser), st.frames = [] →
      backtrack (.functionExpr nm ps bd) other st = none) ∧
    (∀ n : AstNode, ∃ st, internalTraverse n StaticAnalyser.new = some st ∧
      analyse n = some (doneStep st)) := by
  constructor
  · intro nm ps bd other st h
    simp [backtrack, h]
  · intro n
    obtain ⟨st, h1, h2, -⟩ := analyse_run n
    exact ⟨st, h1, h2⟩

/-- Claim C7, witness: the fatal branch fires on a rootward backtrack of a
concrete function expression with an empty frame list. -/
theorem c7_witness :
    backtrack (.functionExpr "f" [] []) (.block [])
      { errors := [], frames := [], current := Scope.mk ":root" [] [] } = none :=
  c7_fatal_only_protocol.1 "f" [] [] (.block [])
    { errors := [], frames := [], current := Scope.mk ":root" [] [] } rfl

/-- Claim C8: the analysis is a pure function of the AST — two analyses of
structurally identical trees by independently constructed analysers return
identical diagnostic lists, hence equal kind/name/span sets and identical
declaration-order prefixes (the embedding fixes one deterministic map order,
so even the unused-variable tail coincides). -/
theorem c8_deterministic (a b : AstNode) (h : a = b) :
    analyseErrors a = analyseErrors b := by
  rw [h]

/-- Claim C8, witness: the determinism theorem instantiated on the concrete
program of scenario F. -/
theorem c8_witness : analyseErrors exC2 = analyseErrors exC2 :=
  c8_deterministic exC2 exC2 rfl

/-- Claim C9: for an assignment `x = literal` whose target resolves to a
Variable record, observing the assignment node and then its left-hand-side
reference leaves the record with `defined = true` and `used = true` and
emits no diagnostic, even when `defined` was `false` before; consequently
`var a; a = 1;` yields no diagnostics at all. -/
theorem c9_assign_defines (st : StaticAnalyser) (sp spl spr s0 : Span)
    (x n0 : String) (k : Int) (df us cb : Bool)
    (h : resolve x st.current st.frames = some (.var s0 n0 df us cb)) :
    (∃ st2, internalTraverse (sp, .binOp .assign (spl, .referenceExpr x)
        (spr, .number k)) st = some st2 ∧
      st2.errors = st.errors ∧
      resolve x st2.current st2.frames = some (.var s0 n0 true true cb)) ∧
    analyseErrors exC9 = some [] := by
  constructor
  · obtain ⟨cur2, frames2, hg, hres, -, -⟩ :=
      getMut_of_resolve_some x assignMut st.current st.frames (.var s0 n0 df us cb) h
    have hobs1 : observe sp (.binOp .assign (spl, .referenceExpr x) (spr, .number k)) st =
        { errors := st.errors, frames := frames2, current := cur2 } := by
      simp [observe, hg]
    have hres1 : resolve x cur2 frames2 = some (.var s0 n0 true us cb) := hres
    obtain ⟨cur3, frames3, hg2, hres2, -, -⟩ :=
      getMut_of_resolve_some x refMut cur2 frames2 (.var s0 n0 true us cb) hres1
    have hobs2 : observe spl (.referenceExpr x)
        { errors := st.errors, frames := frames2, current := cur2 } =
        { errors := st.errors, frames := frames3, current := cur3 } := by
      simp [observe, hg2, refMut]
    refine ⟨{ errors := st.errors, frames := frames3, current := cur3 }, ?_, rfl, ?_⟩
    · show some (observe spl (.referenceExpr x)
          (observe sp (.binOp .assign (spl, .referenceExpr x) (spr, .number k)) st)) = _
      rw [hobs1, hobs2]
    · simpa [refMut] using hres2
  · rfl

/-- Claim C9, witness: the general statement instantiated on a root scope
holding the not-yet-defined variable `a`, plus the concrete program fact. -/
theorem c9_witness :
    (∃ st2, internalTraverse (spn 2, .binOp .assign (spn 3, .referenceExpr "a")
        (spn 4, .number 1))
      { errors := [], frames := [],
        current := Scope.mk ":root" [] [("a", .var (spn 1) "a" false false false)] }
        = some st2 ∧
      st2.errors = [] ∧
      resolve "a" st2.current st2.frames = some (.var (spn 1) "a" true true false)) ∧
    analyseErrors exC9 = some [] := by
  have h := c9_assign_defines
    { errors := [], frames := [],
      current := Scope.mk ":root" [] [("a", .var (spn 1) "a" false false false)] }
    (spn 2) (spn 3) (spn 4) (spn 1) "a" "a" 1 false false false rfl
  simpa using h

/-- Claim C10: a bare-name reference whose nearest enclosing record is a
Function resolves successfully, yet the analyser emits
`UsingUndefinedVariable` for it and mutates nothing: the current scope and
every frame come back exactly as they were. -/
theorem c10_reference_to_function (st : StaticAnalyser) (sp s0 : Span)
    (name nm : String) (arity : Nat)
    (h : resolve name st.current st.frames = some (.fn s0 nm arity)) :
    observe sp (.referenceExpr name) st =
      { errors := st.errors ++ [.usingUndefinedVariable name sp],
        frames := st.frames, current := st.current } := by
  obtain ⟨cur2, frames2, hg, -, -, hid⟩ :=
    getMut_of_resolve_some name refMut st.current st.frames (.fn s0 nm arity) h
  obtain ⟨hc, hf⟩ := hid rfl
  subst hc hf
  simp [observe, hg, refMut]

/-- Claim C10, witness: referencing the zero-ary function `f` emits the
undefined-variable diagnostic while the state is otherwise untouched. -/
theorem c10_witness :
    observe (spn 1) (.referenceExpr "f") stC10 =
      { errors := [.usingUndefinedVariable "f" (spn 1)], frames := [],
        current := stC10.current } := by
  simpa [stC10] using c10_reference_to_function stC10 (spn 1) (spn 0) "f" "f" 0 rfl

end Sca
